import Mathlib

/-!
Shallow embedding of the FFmpeg filter-graph subsystem
(`src/audiovisualizer/ffmpeg_filter_graph/`: `core.py`, `converters.py`,
`registry.py`) together with proofs settling the frozen claims about it.

Python objects are modelled as follows: a `FilterNode` is a record; node
object identity is modelled by the node's index in the owning graph's node
list (`GraphState.nodes`), so Python reference equality becomes index
equality.  Python `dict`s keyed by pad index / label become ordered
association lists with replace-in-place update (matching insertion-order
preserving `dict` semantics).  Python exceptions become `Except`.
-/

/-- Character constants used by the escaping rules (written via `Char.ofNat`
to keep the source free of quote characters). -/
def squote : Char := Char.ofNat 39

def bslash : Char := Char.ofNat 92

def squoteStr : String := String.mk [squote]

/-- Lookup in an ordered association list, first (unique) key wins; models
`d[k]` / `d.get(k)` on a Python dict. -/
def dictGet {κ α : Type} [DecidableEq κ] : List (κ × α) → κ → Option α
  | [], _ => none
  | (k, v) :: rest, k' => if k = k' then some v else dictGet rest k'

/-- Update in an ordered association list: replaces the value in place if the
key is present, else appends; models `d[k] = v` on a Python dict. -/
def dictSet {κ α : Type} [DecidableEq κ] (k : κ) (v : α) : List (κ × α) → List (κ × α)
  | [] => [(k, v)]
  | (k', v') :: rest => if k' = k then (k, v) :: rest else (k', v') :: dictSet k v rest

/-- Python list indexing `xs[i]` with negative-index semantics: `none` models
an `IndexError`. -/
def pyListGet {α : Type} (xs : List α) (i : Int) : Option α :=
  if 0 ≤ i then xs.get? i.toNat
  else
    let j : Int := (xs.length : Int) + i
    if 0 ≤ j then xs.get? j.toNat else none

/-- Parameter values: Python `int` (the `isinstance(value, (int, float))`
branch, modelled for integers) or any other value already stringified. -/
inductive PVal : Type where
  | num : Int → PVal
  | str : String → PVal
deriving DecidableEq, Repr

/-- Single-character textual replacement; models Python
`s.replace(old, new)` for a one-character `old` pattern. -/
def replaceChar (old : Char) (new : List Char) : List Char → List Char
  | [] => []
  | c :: rest => (if c = old then new else [c]) ++ replaceChar old new rest

/-- The special characters checked by `_escape_param`
(`[':', ',', '[', ']', '\\']`), in source order. -/
def specials : List Char := [':', ',', '[', ']', bslash]

/-- The five sequential `str.replace` calls of `_escape_param`: backslashes
are doubled first, then each of `:`, `,`, `[`, `]` is backslash-escaped. -/
def escapeChain (s : List Char) : List Char :=
  replaceChar ']' [bslash, ']']
    (replaceChar '[' [bslash, '[']
      (replaceChar ',' [bslash, ',']
        (replaceChar ':' [bslash, ':']
          (replaceChar bslash [bslash, bslash] s))))

/-- Embedding of `_escape_param` (core.py lines 8-23): numbers render via
`str`, other values are escaped and single-quoted when they contain a
special character, otherwise emitted bare. -/
def escape_param : PVal → String
  | PVal.num n => toString n
  | PVal.str s =>
    if specials.any (fun c => s.data.contains c) then
      String.mk (squote :: escapeChain s.data ++ [squote])
    else s

/-- Reversal of the escape sequences, following the wording of the spec
(each backslash-escape `\x` is undone to `x`); used to state the round-trip
property of the escaping rule. -/
def unescape : List Char → List Char
  | [] => []
  | [c] => [c]
  | c :: d :: rest =>
    if c = bslash then d :: unescape rest else c :: unescape (d :: rest)

/-- Per-character view of the composed replacement chain. -/
def escChar (c : Char) : List Char :=
  if c = bslash then [bslash, bslash]
  else if c = ':' then [bslash, ':']
  else if c = ',' then [bslash, ',']
  else if c = '[' then [bslash, '[']
  else if c = ']' then [bslash, ']']
  else [c]

theorem replaceChar_append (old : Char) (new : List Char) (a b : List Char) :
    replaceChar old new (a ++ b) = replaceChar old new a ++ replaceChar old new b := by
  induction a with
  | nil => rfl
  | cons c rest ih => simp [replaceChar, ih]

theorem escapeChain_append (a b : List Char) :
    escapeChain (a ++ b) = escapeChain a ++ escapeChain b := by
  simp only [escapeChain, replaceChar_append]

theorem escapeChain_singleton (c : Char) : escapeChain [c] = escChar c := by
  by_cases h1 : c = bslash
  · subst h1; decide
  by_cases h2 : c = ':'
  · subst h2; decide
  by_cases h3 : c = ','
  · subst h3; decide
  by_cases h4 : c = '['
  · subst h4; decide
  by_cases h5 : c = ']'
  · subst h5; decide
  simp [escapeChain, replaceChar, escChar, h1, h2, h3, h4, h5]

theorem escapeChain_eq_flatMap (s : List Char) : escapeChain s = s.flatMap escChar := by
  induction s with
  | nil => rfl
  | cons c rest ih =>
    rw [show (c :: rest) = [c] ++ rest from rfl, escapeChain_append,
      escapeChain_singleton, ih]
    simp

theorem unescape_cons_plain (c : Char) (l : List Char) (h : c ≠ bslash) :
    unescape (c :: l) = c :: unescape l := by
  cases l with
  | nil => rfl
  | cons d rest => simp [unescape, h]

theorem unescape_cons_escaped (d : Char) (l : List Char) :
    unescape (bslash :: d :: l) = d :: unescape l := by
  simp [unescape]

theorem escChar_shape (c : Char) :
    escChar c = [bslash, c] ∨ (escChar c = [c] ∧ c ≠ bslash) := by
  by_cases h1 : c = bslash
  · subst h1; left; decide
  by_cases h2 : c = ':'
  · subst h2; left; decide
  by_cases h3 : c = ','
  · subst h3; left; decide
  by_cases h4 : c = '['
  · subst h4; left; decide
  by_cases h5 : c = ']'
  · subst h5; left; decide
  right
  exact ⟨by simp [escChar, h1, h2, h3, h4, h5], h1⟩

theorem unescape_escChar (s : List Char) : unescape (s.flatMap escChar) = s := by
  induction s with
  | nil => rfl
  | cons c rest ih =>
    rw [List.flatMap_cons]
    rcases escChar_shape c with h | ⟨h, hne⟩
    · rw [h, List.cons_append, List.cons_append, List.nil_append,
        unescape_cons_escaped, ih]
    · rw [h, List.singleton_append, unescape_cons_plain c _ hne, ih]

/-- C3: the escaping rule of `_escape_param` is faithful: numbers render as
their decimal form; a string containing a special character is escaped and
wrapped in single quotes such that stripping the quotes and reversing the
escape sequences recovers the original; a string with no special character
is emitted bare. -/
theorem escape_param_spec (v : PVal) :
    (∀ n : Int, v = PVal.num n → escape_param v = toString n) ∧
    (∀ s : String, v = PVal.str s →
      (specials.any (fun c => s.data.contains c) = true →
        ∃ body : List Char,
          escape_param v = String.mk (squote :: body ++ [squote]) ∧
          unescape body = s.data) ∧
      (specials.any (fun c => s.data.contains c) = false → escape_param v = s)) := by
  refine ⟨fun n hn => by subst hn; rfl, fun s hs => ?_⟩
  subst hs
  have hdef : escape_param (PVal.str s) =
      if (specials.any fun c => s.data.contains c) = true then
        String.mk (squote :: escapeChain s.data ++ [squote])
      else s := rfl
  constructor
  · intro hsp
    refine ⟨escapeChain s.data, ?_, ?_⟩
    · rw [hdef, if_pos hsp]
    · rw [escapeChain_eq_flatMap, unescape_escChar]
  · intro hsp
    rw [hdef, if_neg (fun h => Bool.false_ne_true (hsp ▸ h))]

/-- Witness for C3: the value `a:b\` contains special characters; the escaped
body round-trips, and the plain value `abc` is emitted bare. -/
theorem escape_param_spec_witness :
    (∃ body : List Char,
      escape_param (PVal.str (String.mk ['a', ':', 'b', bslash])) =
        String.mk (squote :: body ++ [squote]) ∧
      unescape body = ['a', ':', 'b', bslash]) ∧
    escape_param (PVal.str "abc") = "abc" := by
  constructor
  · exact ((escape_param_spec (PVal.str (String.mk ['a', ':', 'b', bslash]))).2
      (String.mk ['a', ':', 'b', bslash]) rfl).1 (by decide)
  · exact ((escape_param_spec (PVal.str "abc")).2 "abc" rfl).2 (by decide)

/-- Embedding of `FilterNode` (core.py lines 26-44).  Pad indices are Python
`int`s, hence `Int`.  `inputs` holds `(source-node-id-or-none, pad)` pairs as
appended by `add_input`; `outputs` holds `(target-node-id, target-pad)`
pairs.  The label dicts are ordered association lists. -/
structure FilterNode : Type where
  filter_type : String
  label : String
  params : List (String × PVal)
  inputs : List (Option Nat × Int)
  outputs : List (Nat × Int)
  input_labels : List (Int × String)
  output_labels : List (Int × String)
deriving DecidableEq, Repr

def defaultNode : FilterNode := ⟨"", "", [], [], [], [], []⟩

/-- Embedding of `FilterGraph`'s own state (core.py lines 100-105): the node
list (node identity = index), and the external input/output label maps. -/
structure GraphState : Type where
  nodes : List FilterNode
  inputs : List (String × Nat × Int)
  outputs : List (String × Nat × Int)
deriving DecidableEq, Repr

def getNode (st : GraphState) (i : Nat) : FilterNode :=
  (st.nodes.get? i).getD defaultNode

def updNode (st : GraphState) (i : Nat) (f : FilterNode → FilterNode) : GraphState :=
  { st with nodes := st.nodes.set i (f (getNode st i)) }

/-- Embedding of `FilterNode.add_input` (core.py lines 46-56): with a real
source, `(source, source_pad)` is appended to the target's `inputs` and
`(self, pad_index)` to the source's `outputs`; with `None` the pair
`(None, pad_index)` records an external-input placeholder. -/
def add_input (st : GraphState) (selfId : Nat) (source : Option Nat)
    (pad_index source_pad : Int) : GraphState :=
  match source with
  | some srcId =>
    let st1 := updNode st selfId (fun n => { n with inputs := n.inputs ++ [(some srcId, source_pad)] })
    updNode st1 srcId (fun n => { n with outputs := n.outputs ++ [(selfId, pad_index)] })
  | none =>
    updNode st selfId (fun n => { n with inputs := n.inputs ++ [(none, pad_index)] })

/-- Embedding of `FilterGraph.connect` (core.py lines 117-120). -/
def connect (st : GraphState) (source target : Nat) (source_pad target_pad : Int) : GraphState :=
  add_input st target (some source) target_pad source_pad

def set_input_label (st : GraphState) (nId : Nat) (pad : Int) (lbl : String) : GraphState :=
  updNode st nId (fun n => { n with input_labels := dictSet pad lbl n.input_labels })

def set_output_label (st : GraphState) (nId : Nat) (pad : Int) (lbl : String) : GraphState :=
  updNode st nId (fun n => { n with output_labels := dictSet pad lbl n.output_labels })

/-- Embedding of `FilterGraph.set_input` (core.py lines 122-126). -/
def set_input (st : GraphState) (lbl : String) (nId : Nat) (pad : Int) : GraphState :=
  let st1 := { st with inputs := dictSet lbl (nId, pad) st.inputs }
  set_input_label st1 nId pad lbl

/-- Embedding of `FilterGraph.set_output` (core.py lines 128-132). -/
def set_output (st : GraphState) (lbl : String) (nId : Nat) (pad : Int) : GraphState :=
  let st1 := { st with outputs := dictSet lbl (nId, pad) st.outputs }
  set_output_label st1 nId pad lbl

/-- Embedding of `FilterNode.get_output_label` (core.py lines 78-82). -/
def get_output_label (n : FilterNode) (pad_index : Int) : String :=
  match dictGet n.output_labels pad_index with
  | some l => l
  | none => if 0 < pad_index then n.label ++ "_out" ++ toString pad_index else n.label

/-- Embedding of `FilterNode.get_input_label` (core.py lines 68-76), with
Python exception behaviour made explicit: `Except.error ()` models the
`IndexError` raised by `self.inputs[pad_index]` when `pad_index` is negative
and out of range (the guard `pad_index < len(self.inputs)` accepts every
negative index). -/
def get_input_label (st : GraphState) (nId : Nat) (pad_index : Int) :
    Except Unit (Option String) :=
  let n := getNode st nId
  match dictGet n.input_labels pad_index with
  | some l => Except.ok (some l)
  | none =>
    if pad_index < (n.inputs.length : Int) then
      match pyListGet n.inputs pad_index with
      | none => Except.error ()
      | some (none, _) => Except.ok none
      | some (some srcId, srcPad) =>
          Except.ok (some (get_output_label (getNode st srcId) srcPad))
    else Except.ok none

/-- Total restriction of `get_input_label` to natural pad indices, used by
the serializer (which only queries pads `0 ≤ i < len(inputs)`, where no
`IndexError` is possible); `get_input_label_agrees` relates the two. -/
def get_input_labelN (st : GraphState) (nId : Nat) (i : Nat) : Option String :=
  let n := getNode st nId
  match dictGet n.input_labels (i : Int) with
  | some l => some l
  | none =>
    match n.inputs.get? i with
    | some (some srcId, srcPad) => some (get_output_label (getNode st srcId) srcPad)
    | _ => none

theorem pyListGet_natCast {α : Type} (xs : List α) (i : Nat) :
    pyListGet xs (i : Int) = xs.get? i := by
  unfold pyListGet
  rw [if_pos (Int.natCast_nonneg i), Int.toNat_natCast]

theorem get_input_label_agrees (st : GraphState) (nId : Nat) (i : Nat) :
    get_input_label st nId (i : Int) = Except.ok (get_input_labelN st nId i) := by
  simp only [get_input_label, get_input_labelN]
  cases hd : dictGet (getNode st nId).input_labels (i : Int) with
  | some l => simp [hd]
  | none =>
    simp only [hd]
    by_cases hlt : (i : Int) < ((getNode st nId).inputs.length : Int)
    · rw [if_pos hlt, pyListGet_natCast]
      have hi : i < (getNode st nId).inputs.length := by exact_mod_cast hlt
      cases hg : (getNode st nId).inputs.get? i with
      | none =>
        exact absurd (List.get?_eq_none.mp hg) (by omega)
      | some p =>
        rcases p with ⟨src, sp⟩
        cases src <;> simp
    · rw [if_neg hlt]
      have hi : (getNode st nId).inputs.length ≤ i := by omega
      rw [List.get?_eq_none.mpr hi]

theorem get?_append_left {α : Type} (l1 l2 : List α) (k : Nat) (h : k < l1.length) :
    (l1 ++ l2).get? k = l1.get? k := by
  induction l1 generalizing k with
  | nil => simp at h
  | cons c rest ih =>
    cases k with
    | zero => rfl
    | succ k' => simpa using ih k' (by simpa using h)

theorem get?_concat_len {α : Type} (l : List α) (x : α) :
    (l ++ [x]).get? l.length = some x := by
  induction l with
  | nil => rfl
  | cons c rest ih => simp [ih]

/-- C8: `get_output_label` returns the explicit override when one is set for
the pad, otherwise the node label itself for pad 0 and
`label ++ "_out" ++ pad` for positive pads; being a total function into
`String` it always returns a string and never fails. -/
theorem get_output_label_spec (n : FilterNode) (pad : Int) :
    (∀ l : String, dictGet n.output_labels pad = some l → get_output_label n pad = l) ∧
    (dictGet n.output_labels pad = none → pad = 0 → get_output_label n pad = n.label) ∧
    (dictGet n.output_labels pad = none → 0 < pad →
      get_output_label n pad = n.label ++ "_out" ++ toString pad) := by
  unfold get_output_label
  refine ⟨fun l hl => by rw [hl], fun hn h0 => ?_, fun hn hp => ?_⟩
  · rw [hn]
    simp [h0]
  · rw [hn]
    simp [hp]

def c8Node : FilterNode := ⟨"scale", "sc", [], [], [], [], [((0 : Int), "ovr")]⟩

/-- Witness for C8 at a concrete node: pad 0 has an override and returns it;
pad 2 has none and returns the default positive-pad label. -/
theorem get_output_label_spec_witness :
    get_output_label c8Node 0 = "ovr" ∧
    get_output_label c8Node 2 = c8Node.label ++ "_out" ++ toString (2 : Int) := by
  refine ⟨(get_output_label_spec c8Node 0).1 "ovr" (by decide), ?_⟩
  exact (get_output_label_spec c8Node 2).2.2 (by decide) (by decide)

/-- C5: round-trip labeling.  If node `a` is connected into node `b` at
input position `pad` (carrying source pad `sp`), `b` has no explicit input
label override for that pad and `a` has no explicit output label override
for `sp`, then `b.get_input_label(pad)` resolves to exactly
`a.get_output_label(sp)`. -/
theorem round_trip_label (st : GraphState) (aId bId : Nat) (pad : Nat) (sp : Int)
    (hov : dictGet (getNode st bId).input_labels (pad : Int) = none)
    (hconn : (getNode st bId).inputs.get? pad = some (some aId, sp))
    (_hAov : dictGet (getNode st aId).output_labels sp = none) :
    get_input_label st bId (pad : Int) =
      Except.ok (some (get_output_label (getNode st aId) sp)) := by
  rw [get_input_label_agrees]
  simp only [get_input_labelN, hov, hconn]

def c5Graph : GraphState :=
  ⟨[⟨"movie", "src0", [], [], [(1, 0)], [], []⟩,
    ⟨"scale", "sc1", [], [(some 0, 0)], [], [], []⟩], [], []⟩

/-- Witness for C5: in a concrete two-node graph with `src0 → sc1`, the
resolved input label of `sc1` at pad 0 is the output label of `src0`. -/
theorem round_trip_label_witness :
    get_input_label c5Graph 1 ((0 : Nat) : Int) =
      Except.ok (some (get_output_label (getNode c5Graph 0) 0)) :=
  round_trip_label c5Graph 0 1 0 0 (by decide) (by decide) (by decide)

/-- C10 (amended): `get_input_label` is total for every non-negative pad
index (returning `None` for an out-of-range pad, an external-input
placeholder, or a missing override), and more generally raises no exception
for any pad index `≥ -len(inputs)`; only a negative index below
`-len(inputs)` with no override reaches `self.inputs[pad_index]` and raises
`IndexError`. -/
theorem get_input_label_total (st : GraphState) (nId : Nat) (pad : Int) :
    (dictGet (getNode st nId).input_labels pad = none →
      ((getNode st nId).inputs.length : Int) ≤ pad →
      get_input_label st nId pad = Except.ok none) ∧
    (∀ p : Int, dictGet (getNode st nId).input_labels pad = none →
      0 ≤ pad → (getNode st nId).inputs.get? pad.toNat = some (none, p) →
      get_input_label st nId pad = Except.ok none) ∧
    (-((getNode st nId).inputs.length : Int) ≤ pad →
      ∃ r : Option String, get_input_label st nId pad = Except.ok r) := by
  refine ⟨fun hn hge => ?_, fun p hn h0 hg => ?_, fun hlb => ?_⟩
  · simp only [get_input_label, hn]
    rw [if_neg (by omega)]
  · simp only [get_input_label, hn]
    have hlt : pad.toNat < (getNode st nId).inputs.length := by
      by_contra hc
      rw [List.get?_eq_none.mpr (by omega)] at hg
      exact Option.noConfusion hg
    rw [if_pos (by omega)]
    unfold pyListGet
    rw [if_pos h0, hg]
  · simp only [get_input_label]
    cases hd : dictGet (getNode st nId).input_labels pad with
    | some l => exact ⟨some l, rfl⟩
    | none =>
      by_cases hlt : pad < ((getNode st nId).inputs.length : Int)
      · rw [if_pos hlt]
        unfold pyListGet
        by_cases h0 : 0 ≤ pad
        · rw [if_pos h0]
          cases hg : (getNode st nId).inputs.get? pad.toNat with
          | none =>
            have := List.get?_eq_none.mp hg
            omega
          | some q =>
            rcases q with ⟨src, sp⟩
            cases src with
            | none => exact ⟨none, rfl⟩
            | some srcId => exact ⟨some (get_output_label (getNode st srcId) sp), rfl⟩
        · rw [if_neg h0]
          simp only
          rw [if_pos (by omega)]
          cases hg : (getNode st nId).inputs.get?
              (((getNode st nId).inputs.length : Int) + pad).toNat with
          | none =>
            have := List.get?_eq_none.mp hg
            omega
          | some q =>
            rcases q with ⟨src, sp⟩
            cases src with
            | none => exact ⟨none, rfl⟩
            | some srcId => exact ⟨some (get_output_label (getNode st srcId) sp), rfl⟩
      · rw [if_neg hlt]
        exact ⟨none, rfl⟩

def c10Graph : GraphState :=
  ⟨[⟨"scale", "s0", [], [(none, 5)], [], [], []⟩], [], []⟩

/-- Counterexample for C10: on a node whose `inputs` list has length 1, pad
index `-2` passes the guard `pad_index < len(self.inputs)` and
`self.inputs[-2]` raises `IndexError`; so `get_input_label` is not total on
all integer pad indices. -/
theorem get_input_label_ixerr : get_input_label c10Graph 0 (-2) = Except.error () := by
  rfl

/-- Witness for C10 (amended): at the same concrete node, pad 7 (out of
range) gives `None`, pad 0 (external-input placeholder) gives `None`, and
pad `-1` (negative but within range) does not raise. -/
theorem get_input_label_total_witness :
    get_input_label c10Graph 0 7 = Except.ok none ∧
    get_input_label c10Graph 0 0 = Except.ok none ∧
    ∃ r : Option String, get_input_label c10Graph 0 (-1) = Except.ok r := by
  refine ⟨(get_input_label_total c10Graph 0 7).1 (by decide) (by decide),
    (get_input_label_total c10Graph 0 0).2.1 5 (by decide) (by decide) (by decide),
    (get_input_label_total c10Graph 0 (-1)).2.2 (by decide)⟩

/-- Graph-building operations: the public mutation API of the subsystem
(`create_node`, `connect`, `add_input`, `set_input`, `set_output`,
`set_input_label`, `set_output_label`).  A build trace models an arbitrary
client interaction sequence. -/
inductive BuildOp : Type where
  | createNode (ft lbl : String) (ps : List (String × PVal))
  | connectOp (source target : Nat) (source_pad target_pad : Int)
  | addInputOp (target : Nat) (source : Option Nat) (pad_index source_pad : Int)
  | setInputOp (lbl : String) (node : Nat) (pad : Int)
  | setOutputOp (lbl : String) (node : Nat) (pad : Int)
  | setInputLabelOp (node : Nat) (pad : Int) (lbl : String)
  | setOutputLabelOp (node : Nat) (pad : Int) (lbl : String)
deriving DecidableEq, Repr

def applyOp (st : GraphState) : BuildOp → GraphState
  | BuildOp.createNode ft lbl ps =>
    { st with nodes := st.nodes ++ [⟨ft, lbl, ps, [], [], [], []⟩] }
  | BuildOp.connectOp s t sp tp => connect st s t sp tp
  | BuildOp.addInputOp t src pad sp => add_input st t src pad sp
  | BuildOp.setInputOp l n p => set_input st l n p
  | BuildOp.setOutputOp l n p => set_output st l n p
  | BuildOp.setInputLabelOp n p l => set_input_label st n p l
  | BuildOp.setOutputLabelOp n p l => set_output_label st n p l

def build (ops : List BuildOp) : GraphState := ops.foldl applyOp ⟨[], [], []⟩

theorem length_updNode (st : GraphState) (j : Nat) (f : FilterNode → FilterNode) :
    (updNode st j f).nodes.length = st.nodes.length := by
  simp [updNode]

theorem getNode_updNode_self (st : GraphState) (j : Nat) (f : FilterNode → FilterNode)
    (h : j < st.nodes.length) : getNode (updNode st j f) j = f (getNode st j) := by
  simp only [getNode, updNode]
  rw [List.get?_set_eq_of_lt _ h]
  rfl

theorem getNode_updNode_ne (st : GraphState) (i j : Nat) (f : FilterNode → FilterNode)
    (h : j ≠ i) : getNode (updNode st j f) i = getNode st i := by
  simp only [getNode, updNode]
  rw [List.get?_set_ne _ _ h]

theorem getNode_updNode_oob (st : GraphState) (j : Nat) (f : FilterNode → FilterNode)
    (h : st.nodes.length ≤ j) : (updNode st j f).nodes = st.nodes := by
  simp [updNode, List.set_eq_of_length_le h]


/-- Conclusions of the preservation lemmas: one build step never shrinks the
node list, never removes an established output edge, and never disturbs an
existing input-list position. -/
def Preserves (st st' : GraphState) : Prop :=
  st.nodes.length ≤ st'.nodes.length ∧
  (∀ i : Nat, ∀ v, v ∈ (getNode st i).outputs → v ∈ (getNode st' i).outputs) ∧
  (∀ i k w, (getNode st i).inputs.get? k = some w →
    (getNode st' i).inputs.get? k = some w)

theorem Preserves.trans {s1 s2 s3 : GraphState}
    (h12 : Preserves s1 s2) (h23 : Preserves s2 s3) : Preserves s1 s3 :=
  ⟨Nat.le_trans h12.1 h23.1,
   fun i v hv => h23.2.1 i v (h12.2.1 i v hv),
   fun i k w hw => h23.2.2 i k w (h12.2.2 i k w hw)⟩

theorem updNode_preserves (st : GraphState) (j : Nat) (f : FilterNode → FilterNode)
    (hout : ∀ n, (f n).outputs = n.outputs ∨ ∃ x, (f n).outputs = n.outputs ++ [x])
    (hinp : ∀ n, (f n).inputs = n.inputs ∨ ∃ x, (f n).inputs = n.inputs ++ [x]) :
    Preserves st (updNode st j f) := by
  refine ⟨by rw [length_updNode], ?_, ?_⟩
  · intro i v hv
    by_cases hji : j = i
    · subst hji
      by_cases hlt : j < st.nodes.length
      · rw [getNode_updNode_self st j f hlt]
        rcases hout (getNode st j) with h | ⟨x, h⟩
        · rw [h]; exact hv
        · rw [h]; exact List.mem_append_left _ hv
      · have heq : (updNode st j f).nodes = st.nodes := getNode_updNode_oob st j f (by omega)
        simp only [getNode, heq]
        exact hv
    · rw [getNode_updNode_ne st i j f hji]; exact hv
  · intro i k w hw
    by_cases hji : j = i
    · subst hji
      by_cases hlt : j < st.nodes.length
      · rw [getNode_updNode_self st j f hlt]
        rcases hinp (getNode st j) with h | ⟨x, h⟩
        · rw [h]; exact hw
        · rw [h]
          have hk : k < (getNode st j).inputs.length := by
            by_contra hc
            rw [List.get?_eq_none.mpr (by omega)] at hw
            exact Option.noConfusion hw
          rw [get?_append_left _ _ _ hk]; exact hw
      · have heq : (updNode st j f).nodes = st.nodes := getNode_updNode_oob st j f (by omega)
        simp only [getNode, heq]
        exact hw
    · rw [getNode_updNode_ne st i j f hji]; exact hw

theorem appendNode_preserves (st : GraphState) (fn : FilterNode) :
    Preserves st { st with nodes := st.nodes ++ [fn] } := by
  refine ⟨by simp, ?_, ?_⟩
  · intro i v hv
    by_cases hlt : i < st.nodes.length
    · simp only [getNode, get?_append_left st.nodes [fn] i hlt]
      exact hv
    · have hd : getNode st i = defaultNode := by
        simp only [getNode]
        rw [List.get?_eq_none.mpr (by omega)]
        rfl
      rw [hd] at hv
      exact absurd hv (List.not_mem_nil _)
  · intro i k w hw
    by_cases hlt : i < st.nodes.length
    · simp only [getNode, get?_append_left st.nodes [fn] i hlt]
      exact hw
    · have hd : getNode st i = defaultNode := by
        simp only [getNode]
        rw [List.get?_eq_none.mpr (by omega)]
        rfl
      rw [hd] at hw
      exact Option.noConfusion hw

theorem graphFields_preserves (st : GraphState)
    (ins : List (String × Nat × Int)) (outs : List (String × Nat × Int)) :
    Preserves st { st with inputs := ins, outputs := outs } :=
  ⟨Nat.le_refl _, fun _ _ hv => hv, fun _ _ _ hw => hw⟩

theorem applyOp_preserves (op : BuildOp) (st : GraphState) :
    Preserves st (applyOp st op) := by
  cases op with
  | createNode ft lbl ps => exact appendNode_preserves st _
  | connectOp s t sp tp =>
    show Preserves st (connect st s t sp tp)
    unfold connect add_input
    exact Preserves.trans
      (updNode_preserves st t (fun n => { n with inputs := n.inputs ++ [(some s, sp)] })
        (fun n => Or.inl rfl) (fun n => Or.inr ⟨_, rfl⟩))
      (updNode_preserves _ s (fun n => { n with outputs := n.outputs ++ [(t, tp)] })
        (fun n => Or.inr ⟨_, rfl⟩) (fun n => Or.inl rfl))
  | addInputOp t src pad sp =>
    show Preserves st (add_input st t src pad sp)
    unfold add_input
    cases src with
    | some srcId =>
      exact Preserves.trans
        (updNode_preserves st t (fun n => { n with inputs := n.inputs ++ [(some srcId, sp)] })
          (fun n => Or.inl rfl) (fun n => Or.inr ⟨_, rfl⟩))
        (updNode_preserves _ srcId (fun n => { n with outputs := n.outputs ++ [(t, pad)] })
          (fun n => Or.inr ⟨_, rfl⟩) (fun n => Or.inl rfl))
    | none =>
      exact updNode_preserves st t (fun n => { n with inputs := n.inputs ++ [(none, pad)] })
        (fun n => Or.inl rfl) (fun n => Or.inr ⟨_, rfl⟩)
  | setInputOp l n p =>
    show Preserves st (set_input st l n p)
    unfold set_input set_input_label
    exact Preserves.trans (graphFields_preserves st _ _)
      (updNode_preserves _ n _ (fun n => Or.inl rfl) (fun n => Or.inl rfl))
  | setOutputOp l n p =>
    show Preserves st (set_output st l n p)
    unfold set_output set_output_label
    exact Preserves.trans (graphFields_preserves st _ _)
      (updNode_preserves _ n _ (fun n => Or.inl rfl) (fun n => Or.inl rfl))
  | setInputLabelOp n p l =>
    exact updNode_preserves st n _ (fun n => Or.inl rfl) (fun n => Or.inl rfl)
  | setOutputLabelOp n p l =>
    exact updNode_preserves st n _ (fun n => Or.inl rfl) (fun n => Or.inl rfl)

theorem foldl_preserves (ops : List BuildOp) (st : GraphState) :
    Preserves st (ops.foldl applyOp st) := by
  induction ops generalizing st with
  | nil => exact ⟨Nat.le_refl _, fun _ _ hv => hv, fun _ _ _ hw => hw⟩
  | cons op rest ih =>
    exact Preserves.trans (applyOp_preserves op st) (ih (applyOp st op))

/-- C4 (amended): after any build trace, each `connect` from `(a, sp)` into
`(b, tp)` leaves `(b, tp)` in `a.outputs` and appends `(a, sp)` to
`b.inputs` at the position equal to the length of `b.inputs` at the moment
of the call (so `b.inputs[tp] = (a, sp)` exactly when `tp` was that
length); both views are written by the single connect operation and later
operations never disturb them. -/
theorem connect_updates_views (t1 t2 : List BuildOp) (a b : Nat) (sp tp : Int)
    (ha : a < (build t1).nodes.length) (hb : b < (build t1).nodes.length) :
    (b, tp) ∈ (getNode (build (t1 ++ BuildOp.connectOp a b sp tp :: t2)) a).outputs ∧
    (getNode (build (t1 ++ BuildOp.connectOp a b sp tp :: t2)) b).inputs.get?
      (getNode (build t1) b).inputs.length = some (some a, sp) := by
  have hsplit : build (t1 ++ BuildOp.connectOp a b sp tp :: t2) =
      t2.foldl applyOp (applyOp (build t1) (BuildOp.connectOp a b sp tp)) := by
    unfold build
    rw [List.foldl_append]
    rfl
  set st0 := build t1 with hst0
  have hst1 : applyOp st0 (BuildOp.connectOp a b sp tp) =
      updNode (updNode st0 b (fun n => { n with inputs := n.inputs ++ [(some a, sp)] })) a
        (fun n => { n with outputs := n.outputs ++ [(b, tp)] }) := rfl
  set f1 : FilterNode → FilterNode :=
    fun n => { n with inputs := n.inputs ++ [(some a, sp)] } with hf1
  set f2 : FilterNode → FilterNode :=
    fun n => { n with outputs := n.outputs ++ [(b, tp)] } with hf2
  set st1 := applyOp st0 (BuildOp.connectOp a b sp tp) with hst1eq
  have fact1 : (b, tp) ∈ (getNode st1 a).outputs := by
    rw [hst1]
    rw [getNode_updNode_self _ a f2 (by rw [length_updNode]; exact ha)]
    simp [hf2]
  have fact2 : (getNode st1 b).inputs.get? (getNode st0 b).inputs.length =
      some (some a, sp) := by
    rw [hst1]
    by_cases hab : a = b
    · subst hab
      rw [getNode_updNode_self _ a f2 (by rw [length_updNode]; exact ha)]
      rw [getNode_updNode_self _ a f1 ha]
      simp only [hf2, hf1]
      exact get?_concat_len _ _
    · rw [getNode_updNode_ne _ b a f2 hab]
      rw [getNode_updNode_self _ b f1 hb]
      simp only [hf1]
      exact get?_concat_len _ _
  have hpres := foldl_preserves t2 st1
  rw [hsplit]
  exact ⟨hpres.2.1 a (b, tp) fact1,
    hpres.2.2 b (getNode st0 b).inputs.length (some a, sp) fact2⟩

def c4Trace : List BuildOp :=
  [BuildOp.createNode "movie" "A" [], BuildOp.createNode "scale" "B" [],
   BuildOp.connectOp 0 1 0 1]

def c4Graph : GraphState := build c4Trace

/-- Counterexample for C4: connecting node A (id 0) pad 0 into node B
(id 1) pad 1 while B has no inputs puts `(A, 0)` at position 0 of
`B.inputs`, not at position `padB = 1`: `A.outputs` does contain `(B, 1)`
but `B.inputs[1]` does not exist, refuting the claim that
`B.inputs[padB] = (A, padA)` after an arbitrary connect. -/
theorem connect_pad_index_cex :
    (1, (1 : Int)) ∈ (getNode c4Graph 0).outputs ∧
    ¬ ((getNode c4Graph 1).inputs.get? (1 : Nat) = some (some 0, (0 : Int))) := by
  decide

def c4T1 : List BuildOp :=
  [BuildOp.createNode "movie" "A" [], BuildOp.createNode "scale" "B" []]

/-- Witness for C4 (amended) on a concrete trace: after `connect 0 1` with
source pad 0 and target pad 1, `(1, 1)` is in node 0's outputs and
`(some 0, 0)` sits at the recorded append position of node 1's inputs. -/
theorem connect_updates_views_witness :
    (1, (1 : Int)) ∈
      (getNode (build (c4T1 ++ BuildOp.connectOp 0 1 0 1 :: [])) 0).outputs ∧
    (getNode (build (c4T1 ++ BuildOp.connectOp 0 1 0 1 :: [])) 1).inputs.get?
      (getNode (build c4T1) 1).inputs.length = some (some 0, (0 : Int)) :=
  connect_updates_views c4T1 [] 0 1 0 1 (by decide) (by decide)

/-- Filter metadata as used by `FilterRegistry.validate_filter` and
`FilterGraph._validate_structure`: `metadata.get` defaults are baked in
(`min_inputs` 0, `max_inputs` unbounded = `none`, empty parameter lists).
The `min_outputs`/`max_outputs` keys of `buffer_src` are read by no code
and are omitted. -/
structure FilterMetadata : Type where
  min_inputs : Nat := 0
  max_inputs : Option Nat := none
  required_params : List String := []
  optional_params : List String := []
deriving DecidableEq, Repr

/-- Embedding of the builtin registry contents installed by
`FilterRegistry._register_builtin_filters` (registry.py lines 68-153). -/
def get_filter_metadata : String → Option FilterMetadata
  | "buffer_src" => some ⟨0, some 0, [], []⟩
  | "format" => some ⟨1, some 1, ["pix_fmt"], []⟩
  | "overlay" => some ⟨2, some 2, [], ["x", "y", "format", "shortest", "repeatlast"]⟩
  | "drawtext" => some ⟨1, some 1, ["text"],
      ["fontfile", "fontsize", "fontcolor", "x", "y", "alpha", "box",
       "boxcolor", "shadowx", "shadowy", "shadowcolor"]⟩
  | "scale" => some ⟨1, some 1, [],
      ["width", "height", "flags", "interl", "in_color_matrix",
       "out_color_matrix", "force_original_aspect_ratio"]⟩
  | "movie" => some ⟨0, some 0, ["filename"], ["format", "seek_point", "stream_index"]⟩
  | "colorchannelmixer" => some ⟨1, some 1, [],
      ["rr", "rg", "rb", "ra", "gr", "gg", "gb", "ga", "br", "bg", "bb", "ba",
       "ar", "ag", "ab", "aa"]⟩
  | "rotate" => some ⟨1, some 1, [], ["angle", "out_w", "out_h", "fillcolor"]⟩
  | "fade" => some ⟨1, some 1, ["type"],
      ["start_frame", "nb_frames", "alpha", "start_time", "duration"]⟩
  | "fps" => some ⟨1, some 1, [], ["fps", "round", "eof_action"]⟩
  | "setpts" => some ⟨1, some 1, ["expr"], []⟩
  | _ => none

def unknownTypeMsg (t : String) : String := "Unknown filter type: " ++ t

def requiredParamMsg (t p : String) : String :=
  "Missing required parameter " ++ squoteStr ++ p ++ squoteStr ++
    " for filter " ++ squoteStr ++ t ++ squoteStr

def minInputsMsg (t : String) (m k : Nat) : String :=
  "Filter " ++ squoteStr ++ t ++ squoteStr ++ " requires at least " ++
    toString m ++ " inputs, got " ++ toString k

def maxInputsMsg (t : String) (mx k : Nat) : String :=
  "Filter " ++ squoteStr ++ t ++ squoteStr ++ " accepts at most " ++
    toString mx ++ " inputs, got " ++ toString k

def requiredParamErrors (n : FilterNode) (md : FilterMetadata) : List String :=
  md.required_params.filterMap (fun p =>
    if (dictGet n.params p).isNone then some (requiredParamMsg n.filter_type p) else none)

/-- Embedding of `FilterRegistry.validate_filter` (registry.py lines 40-66):
unknown type gives a single error; otherwise missing required parameters,
then the `min_inputs` check, then the `max_inputs` check, in source order.
The `isinstance` guard is subsumed by typing. -/
def validate_filter (n : FilterNode) : List String :=
  match get_filter_metadata n.filter_type with
  | none => [unknownTypeMsg n.filter_type]
  | some md =>
    requiredParamErrors n md ++
    (if n.inputs.length < md.min_inputs then
      [minInputsMsg n.filter_type md.min_inputs n.inputs.length] else []) ++
    (match md.max_inputs with
     | some mx => if mx < n.inputs.length then
         [maxInputsMsg n.filter_type mx n.inputs.length] else []
     | none => [])

/-- C7: for a node of a registered type requiring exactly 2 inputs (and
whose maximum is at least 2, e.g. `overlay`), one connected input produces
the arity error naming both the required minimum and the actual count,
while two connected inputs produce no arity error at all (only possible
required-parameter diagnostics remain). -/
theorem arity_enforcement (n : FilterNode) (md : FilterMetadata)
    (hmd : get_filter_metadata n.filter_type = some md)
    (hmin : md.min_inputs = 2)
    (hmax : md.max_inputs = none ∨ ∃ mx, md.max_inputs = some mx ∧ 2 ≤ mx) :
    (n.inputs.length = 1 →
      minInputsMsg n.filter_type 2 1 ∈ validate_filter n) ∧
    (n.inputs.length = 2 → validate_filter n = requiredParamErrors n md) := by
  constructor
  · intro hlen
    unfold validate_filter
    rw [hmd]
    simp only [hlen, hmin]
    rw [if_pos (by omega)]
    exact List.mem_append_left _ (List.mem_append_right _ (List.mem_singleton.mpr rfl))
  · intro hlen
    unfold validate_filter
    rw [hmd]
    simp only [hlen, hmin]
    rw [if_neg (by omega)]
    rcases hmax with h | ⟨mx, h, hmx⟩
    · rw [h]
      simp
    · rw [h]
      show requiredParamErrors n md ++ [] ++
        (if mx < 2 then [maxInputsMsg n.filter_type mx 2] else []) =
          requiredParamErrors n md
      rw [if_neg (by omega)]
      simp

def overlay1 : FilterNode := ⟨"overlay", "ov", [], [(some 0, 0)], [], [], []⟩

def overlay2 : FilterNode :=
  ⟨"overlay", "ov", [], [(some 0, 0), (some 1, 0)], [], [], []⟩

/-- Witness for C7 at concrete `overlay` nodes: with one input the
validation output contains the arity message naming 2 and 1; with two
inputs it reduces to the (empty) required-parameter diagnostics. -/
theorem arity_enforcement_witness :
    minInputsMsg "overlay" 2 1 ∈ validate_filter overlay1 ∧
    validate_filter overlay2 = requiredParamErrors overlay2 ⟨2, some 2, [],
      ["x", "y", "format", "shortest", "repeatlast"]⟩ := by
  constructor
  · exact (arity_enforcement overlay1 ⟨2, some 2, [],
      ["x", "y", "format", "shortest", "repeatlast"]⟩ rfl rfl
      (Or.inr ⟨2, rfl, by omega⟩)).1 rfl
  · exact (arity_enforcement overlay2 ⟨2, some 2, [],
      ["x", "y", "format", "shortest", "repeatlast"]⟩ rfl rfl
      (Or.inr ⟨2, rfl, by omega⟩)).2 rfl

/-- Successor node ids of a node: the first components of its `outputs`
list, in order (the edges walked by `_topological_sort.visit`). -/
def succs (st : GraphState) (n : Nat) : List Nat :=
  (getNode st n).outputs.map Prod.fst

/-- There is a connection (output edge) from node `a` to node `b`. -/
def hasEdge (st : GraphState) (a b : Nat) : Prop :=
  ∃ p : Int, (b, p) ∈ (getNode st a).outputs

/-- Well-formedness corresponding to Python object references being real
objects owned by the graph: every recorded output edge targets a node of
the graph. -/
def WF (st : GraphState) : Prop :=
  ∀ n ∈ st.nodes, ∀ tp ∈ n.outputs, tp.1 < st.nodes.length

instance (st : GraphState) : Decidable (WF st) := by
  unfold WF
  infer_instance

/-- Errors of the embedded `_topological_sort`: `cycle` models the
`ValueError("Graph contains a cycle")` raise; `fuel` is the embedding's
recursion bound (Python has no such bound; the lemma `visit_no_fuel` shows
this branch is unreachable for well-formed graphs, so it models nothing
observable). -/
inductive SortErr : Type where
  | cycle : SortErr
  | fuel : SortErr
deriving DecidableEq, Repr

def SortErr.msg : SortErr → String
  | SortErr.cycle => "Graph contains a cycle"
  | SortErr.fuel => "maximum recursion depth exceeded"

/-- The mutable state of the depth-first traversal of `_topological_sort`:
the temporary-mark set, the visited set, and the accumulating order list
(sets are modelled by duplicate-free lists; membership is identity-based
in Python and id-based here). -/
structure DFSState : Type where
  temp : List Nat
  visited : List Nat
  order : List Nat
deriving DecidableEq, Repr

mutual

/-- Embedding of `_topological_sort.visit` (converters.py lines 85-104):
raise on a temporary mark, return on a permanent mark, else mark
temporarily, recurse into every output target, unmark, mark visited and
append to the order. -/
def visit (st : GraphState) (fuel : Nat) (s : DFSState) (n : Nat) :
    Except SortErr DFSState :=
  match fuel with
  | 0 => Except.error SortErr.fuel
  | f + 1 =>
    if n ∈ s.temp then Except.error SortErr.cycle
    else if n ∈ s.visited then Except.ok s
    else
      match visitList st f { s with temp := n :: s.temp } (succs st n) with
      | Except.error e => Except.error e
      | Except.ok s2 =>
        Except.ok ⟨s2.temp.erase n, n :: s2.visited, s2.order ++ [n]⟩
termination_by (fuel, 0)

/-- Sequential traversal of a successor list (the `for target, _ in
node.outputs: visit(target)` loop). -/
def visitList (st : GraphState) (fuel : Nat) (s : DFSState) (cs : List Nat) :
    Except SortErr DFSState :=
  match cs with
  | [] => Except.ok s
  | c :: cs' =>
    match visit st fuel s c with
    | Except.error e => Except.error e
    | Except.ok s' => visitList st fuel s' cs'
termination_by (fuel, cs.length + 1)

end

/-- The two `for node in ...: if node not in visited: visit(node)` loops of
`_topological_sort`. -/
def runAll (st : GraphState) (fuel : Nat) : DFSState → List Nat → Except SortErr DFSState
  | s, [] => Except.ok s
  | s, i :: is =>
    if i ∈ s.visited then runAll st fuel s is
    else
      match visit st fuel s i with
      | Except.error e => Except.error e
      | Except.ok s' => runAll st fuel s' is

/-- Whether a node id is bound as an external graph input (the
`any(node == input_node for input_node, _ in graph.inputs.values())`
check; Python `==` on nodes is identity, here id equality). -/
def externallyBound (st : GraphState) (nId : Nat) : Bool :=
  st.inputs.any (fun b => b.2.1 = nId)

/-- Seed nodes of the traversal (converters.py lines 108-113): nodes with
no inputs or bound as external inputs, in graph order. -/
def sourceNodes (st : GraphState) : List Nat :=
  (List.range st.nodes.length).filter
    (fun i => (getNode st i).inputs.isEmpty || externallyBound st i)

/-- Embedding of `FilterGraphConverter._topological_sort` (converters.py
lines 74-131): visit seeds, then all remaining nodes, then reverse the
accumulated order.  The recursion bound `length + 1` is sufficient for any
well-formed graph (`visit_no_fuel`). -/
def topological_sort (st : GraphState) : Except SortErr (List Nat) :=
  match runAll st (st.nodes.length + 1) ⟨[], [], []⟩ (sourceNodes st) with
  | Except.error e => Except.error e
  | Except.ok s1 =>
    match runAll st (st.nodes.length + 1) s1 (List.range st.nodes.length) with
    | Except.error e => Except.error e
    | Except.ok s2 => Except.ok s2.order.reverse

/-- Embedding of `FilterNode.to_filter_string` (core.py lines 84-88): the
textual stage form `type=k1=v1:k2=v2` (or bare `type` with no parameters). -/
def node_stage_string (n : FilterNode) : String :=
  if n.params.isEmpty then n.filter_type
  else n.filter_type ++ "=" ++
    String.intercalate ":" (n.params.map (fun p => p.1 ++ "=" ++ escape_param p.2))

/-- Input labels collected by `_node_to_string` (converters.py lines 36-41):
for each input pad position, the resolved label (when truthy, i.e.
non-empty) wrapped in brackets. -/
def nodeInputLabels (st : GraphState) (nId : Nat) : List String :=
  (List.range (getNode st nId).inputs.length).filterMap (fun i =>
    match get_input_labelN st nId i with
    | some l => if l = "" then none else some ("[" ++ l ++ "]")
    | none => none)

/-- Output labels determined by `_node_to_string` (converters.py lines
43-66): external output bindings first; else the node's own output label
when it has outgoing connections; else the `[out]` fallback exactly when
the graph declares no outputs and the node is the last of `graph.nodes`. -/
def nodeOutputLabels (st : GraphState) (nId : Nat) : List String :=
  let n := getNode st nId
  let bound := st.outputs.filterMap (fun b =>
    if b.2.1 = nId then some ("[" ++ b.1 ++ "]") else none)
  if bound.isEmpty then
    if ¬ n.outputs.isEmpty then ["[" ++ get_output_label n 0 ++ "]"]
    else if st.outputs.isEmpty ∧ nId + 1 = st.nodes.length then ["[out]"]
    else []
  else bound

/-- Embedding of `FilterGraphConverter._node_to_string` (converters.py
lines 32-72). -/
def node_to_string (st : GraphState) (nId : Nat) : String :=
  let il := nodeInputLabels st nId
  let ol := nodeOutputLabels st nId
  if il.isEmpty ∧ ol.isEmpty then ""
  else String.join il ++ node_stage_string (getNode st nId) ++ String.join ol

/-- Embedding of `FilterGraphConverter.to_string` (converters.py lines
9-30): emit each node in topological order, dropping empty stage strings,
joined by `;`.  A sort failure propagates (the Python `ValueError` would). -/
def converter_to_string (st : GraphState) : Except SortErr String :=
  match topological_sort st with
  | Except.error e => Except.error e
  | Except.ok ids =>
    Except.ok (String.intercalate ";"
      ((ids.map (node_to_string st)).filter (fun s => ¬ s = "")))

/-- C6 (amended): a terminal node (no outgoing connections) that is not
bound as an external output receives the implicit `[out]` label if and
only if no explicit output binding exists anywhere in the graph and the
node is the last node of the graph's node list (insertion order) — not
the graph's designated true terminal node. -/
theorem terminal_out_label (st : GraphState) (nId : Nat)
    (hterm : (getNode st nId).outputs = [])
    (hunbound : ∀ b ∈ st.outputs, b.2.1 ≠ nId) :
    nodeOutputLabels st nId = ["[out]"] ↔
      st.outputs = [] ∧ nId + 1 = st.nodes.length := by
  have hbound : st.outputs.filterMap (fun b =>
      if b.2.1 = nId then some ("[" ++ b.1 ++ "]") else none) = [] := by
    rw [List.filterMap_eq_nil_iff]
    intro b hb
    rw [if_neg (hunbound b hb)]
  have hdef : nodeOutputLabels st nId =
      if st.outputs.isEmpty ∧ nId + 1 = st.nodes.length then ["[out]"] else [] := by
    unfold nodeOutputLabels
    simp only [hbound, hterm, List.isEmpty_nil, not_true_eq_false, if_true, if_false]
  rw [hdef]
  by_cases hc : st.outputs.isEmpty ∧ nId + 1 = st.nodes.length
  · rw [if_pos hc]
    simp only [true_iff]
    exact ⟨List.isEmpty_iff.mp hc.1, hc.2⟩
  · rw [if_neg hc]
    constructor
    · intro h
      exact absurd h (by simp)
    · intro h
      exact absurd ⟨List.isEmpty_iff.mpr h.1, h.2⟩ hc

/-- Two-node graph whose unique sink is node 0 but whose last-added node is
node 1 (edge `1 → 0`), with no external output bindings. -/
def c6Graph : GraphState :=
  ⟨[⟨"scale", "A", [], [(some 1, 0)], [], [], []⟩,
    ⟨"movie", "B", [], [], [(0, 0)], [], []⟩], [], []⟩

/-- The designated true terminal of a graph: the unique node with no
outgoing connections (every maximal path ends at it). -/
def UniqueSink (st : GraphState) (nId : Nat) : Prop :=
  nId < st.nodes.length ∧ (getNode st nId).outputs = [] ∧
  ∀ m, m < st.nodes.length → m ≠ nId → (getNode st m).outputs ≠ []

/-- Counterexample for C6: in `c6Graph` node 0 is the unique true terminal,
no explicit output binding exists anywhere, yet the serializer gives node 0
no `[out]` label (the code instead tests `node == graph.nodes[-1]`, i.e.
insertion order). -/
theorem terminal_out_label_cex :
    UniqueSink c6Graph 0 ∧ c6Graph.outputs = [] ∧
    nodeOutputLabels c6Graph 0 = [] := by
  refine ⟨⟨by decide, rfl, ?_⟩, rfl, by decide⟩
  intro m hm hne
  have hm2 : m < 2 := hm
  interval_cases m
  · exact absurd rfl hne
  · decide

/-- Single-node graph with no bindings: its only node is both the unique
sink and the last node. -/
def c6Graph2 : GraphState := ⟨[⟨"movie", "M", [], [], [], [], []⟩], [], []⟩

/-- Witness for C6 (amended): on `c6Graph2` the fallback condition holds and
on `c6Graph` node 0 it does not; both read off the amended equivalence. -/
theorem terminal_out_label_witness :
    (nodeOutputLabels c6Graph2 0 = ["[out]"] ↔
      c6Graph2.outputs = [] ∧ 0 + 1 = c6Graph2.nodes.length) ∧
    (nodeOutputLabels c6Graph 0 = ["[out]"] ↔
      c6Graph.outputs = [] ∧ 0 + 1 = c6Graph.nodes.length) :=
  ⟨terminal_out_label c6Graph2 0 rfl (by decide),
   terminal_out_label c6Graph 0 rfl (by decide)⟩

theorem getNode_mem (st : GraphState) (i : Nat) (h : i < st.nodes.length) :
    getNode st i ∈ st.nodes := by
  simp only [getNode]
  rw [List.get?_eq_get h]
  exact List.get_mem _ _ _

theorem WF_succs_lt (st : GraphState) (hwf : WF st) (a b : Nat)
    (hb : b ∈ succs st a) : b < st.nodes.length := by
  unfold succs at hb
  rcases List.mem_map.mp hb with ⟨⟨b', p⟩, hmem, hfst⟩
  by_cases ha : a < st.nodes.length
  · have := hwf (getNode st a) (getNode_mem st a ha) (b', p) hmem
    exact hfst ▸ this
  · have hd : getNode st a = defaultNode := by
      simp only [getNode]
      rw [List.get?_eq_none.mpr (by omega)]
      rfl
    rw [hd] at hmem
    exact absurd hmem (List.not_mem_nil _)

theorem hasEdge_iff_succs (st : GraphState) (a b : Nat) :
    hasEdge st a b ↔ b ∈ succs st a := by
  unfold hasEdge succs
  constructor
  · rintro ⟨p, hp⟩
    exact List.mem_map.mpr ⟨(b, p), hp, rfl⟩
  · intro h
    rcases List.mem_map.mp h with ⟨⟨b', p⟩, hm, hfst⟩
    exact ⟨p, by simpa [← hfst] using hm⟩

theorem visit_zero (st : GraphState) (s : DFSState) (n : Nat) :
    visit st 0 s n = Except.error SortErr.fuel := by
  rw [visit]

theorem visit_succ (st : GraphState) (f : Nat) (s : DFSState) (n : Nat) :
    visit st (f + 1) s n =
      (if n ∈ s.temp then Except.error SortErr.cycle
       else if n ∈ s.visited then Except.ok s
       else
         match visitList st f { s with temp := n :: s.temp } (succs st n) with
         | Except.error e => Except.error e
         | Except.ok s2 =>
           Except.ok ⟨s2.temp.erase n, n :: s2.visited, s2.order ++ [n]⟩) := by
  rw [visit]

theorem visitList_nil (st : GraphState) (fuel : Nat) (s : DFSState) :
    visitList st fuel s [] = Except.ok s := by
  rw [visitList]

theorem visitList_cons (st : GraphState) (fuel : Nat) (s : DFSState) (c : Nat)
    (cs' : List Nat) :
    visitList st fuel s (c :: cs') =
      (match visit st fuel s c with
       | Except.error e => Except.error e
       | Except.ok s' => visitList st fuel s' cs') := by
  rw [visitList]

/-- Invariant of the DFS state maintained by `visit`: the temporary-mark
stack is duplicate-free and in range, marks are disjoint from the visited
set, the visited set and the order list carry the same members without
duplicates, and every ordered node's successors are ordered strictly
earlier. -/
structure DFSInv (st : GraphState) (s : DFSState) : Prop where
  tnd : s.temp.Nodup
  tlt : ∀ x ∈ s.temp, x < st.nodes.length
  tv : ∀ x ∈ s.temp, x ∉ s.visited
  vo : ∀ x : Nat, x ∈ s.visited ↔ x ∈ s.order
  ond : s.order.Nodup
  ord : ∀ v ∈ s.order, ∀ t ∈ succs st v,
    t ∈ s.order ∧ s.order.indexOf t < s.order.indexOf v

/-- Conclusions of a successful `visit`/`visitList` run: invariant
preserved, temporary marks restored, order extended by appending, visited
set monotone. -/
def VisitConc (st : GraphState) (s sf : DFSState) : Prop :=
  DFSInv st sf ∧ sf.temp = s.temp ∧ (∃ l, sf.order = s.order ++ l) ∧
  (∀ x, x ∈ s.visited → x ∈ sf.visited)

def VisitOkP (st : GraphState) (fuel : Nat) : Prop :=
  ∀ s n sf, DFSInv st s → n < st.nodes.length →
    visit st fuel s n = Except.ok sf → VisitConc st s sf ∧ n ∈ sf.visited

def VisitListOkP (st : GraphState) (fuel : Nat) : Prop :=
  ∀ s cs sf, DFSInv st s → (∀ c ∈ cs, c < st.nodes.length) →
    visitList st fuel s cs = Except.ok sf →
    VisitConc st s sf ∧ ∀ c ∈ cs, c ∈ sf.visited

theorem dfs_ok (st : GraphState) (hwf : WF st) (fuel : Nat) :
    VisitOkP st fuel ∧ VisitListOkP st fuel := by
  induction fuel with
  | zero =>
    have h0 : VisitOkP st 0 := by
      intro s n sf _ _ hv
      rw [visit_zero] at hv
      exact Except.noConfusion hv
    refine ⟨h0, ?_⟩
    intro s cs sf hInv hlt hv
    cases cs with
    | nil =>
      rw [visitList_nil] at hv
      injection hv with h
      subst h
      exact ⟨⟨hInv, rfl, ⟨[], by simp⟩, fun _ hx => hx⟩, by simp⟩
    | cons c cs' =>
      rw [visitList_cons, visit_zero] at hv
      exact Except.noConfusion hv
  | succ f ih =>
    have hvisit : VisitOkP st (f + 1) := by
      intro s n sf hInv hn hv
      rw [visit_succ] at hv
      by_cases ht : n ∈ s.temp
      · rw [if_pos ht] at hv
        exact Except.noConfusion hv
      rw [if_neg ht] at hv
      by_cases hvd : n ∈ s.visited
      · rw [if_pos hvd] at hv
        injection hv with h
        subst h
        exact ⟨⟨hInv, rfl, ⟨[], by simp⟩, fun _ hx => hx⟩, hvd⟩
      rw [if_neg hvd] at hv
      have hInv1 : DFSInv st { s with temp := n :: s.temp } :=
        { tnd := List.nodup_cons.mpr ⟨ht, hInv.tnd⟩
          tlt := by
            intro x hx
            rcases List.mem_cons.mp hx with rfl | hx'
            · exact hn
            · exact hInv.tlt x hx'
          tv := by
            intro x hx
            rcases List.mem_cons.mp hx with rfl | hx'
            · exact hvd
            · exact hInv.tv x hx'
          vo := hInv.vo
          ond := hInv.ond
          ord := hInv.ord }
      cases hvl : visitList st f { s with temp := n :: s.temp } (succs st n) with
      | error e =>
        rw [hvl] at hv
        exact Except.noConfusion hv
      | ok s2 =>
        rw [hvl] at hv
        injection hv with h
        subst h
        obtain ⟨⟨hInv2, htemp2, ⟨l2, hord2⟩, hmono2⟩, hchild⟩ :=
          ih.2 { s with temp := n :: s.temp } (succs st n) s2 hInv1
            (fun c hc => WF_succs_lt st hwf n c hc) hvl
        have htemp2' : s2.temp = n :: s.temp := htemp2
        have hnotord : n ∉ s2.order := by
          intro hcon
          exact hInv2.tv n (by rw [htemp2']; exact List.mem_cons_self n _)
            ((hInv2.vo n).mpr hcon)
        have hchild_ord : ∀ t ∈ succs st n, t ∈ s2.order :=
          fun t hts => (hInv2.vo t).mp (hchild t hts)
        refine ⟨⟨?_, ?_, ?_, ?_⟩, ?_⟩
        · exact
          { tnd := by
              show (s2.temp.erase n).Nodup
              rw [htemp2', List.erase_cons_head]
              exact hInv.tnd
            tlt := by
              show ∀ x ∈ s2.temp.erase n, x < st.nodes.length
              rw [htemp2', List.erase_cons_head]
              exact hInv.tlt
            tv := by
              show ∀ x ∈ s2.temp.erase n, x ∉ n :: s2.visited
              rw [htemp2', List.erase_cons_head]
              intro x hx hmem
              rcases List.mem_cons.mp hmem with rfl | hx'
              · exact ht hx
              · exact hInv2.tv x (by rw [htemp2']; exact List.mem_cons_of_mem _ hx) hx'
            vo := by
              intro x
              show x ∈ n :: s2.visited ↔ x ∈ s2.order ++ [n]
              rw [List.mem_cons, List.mem_append, List.mem_singleton, hInv2.vo x]
              tauto
            ond := by
              show (s2.order ++ [n]).Nodup
              rw [List.nodup_append]
              exact ⟨hInv2.ond, List.nodup_singleton n,
                fun a ha hb => by
                  rw [List.mem_singleton] at hb
                  subst hb
                  exact hnotord ha⟩
            ord := by
              intro v hv t hts
              show t ∈ s2.order ++ [n] ∧
                (s2.order ++ [n]).indexOf t < (s2.order ++ [n]).indexOf v
              rcases List.mem_append.mp hv with hvo | hvn
              · obtain ⟨hto, hidx⟩ := hInv2.ord v hvo t hts
                refine ⟨List.mem_append_left _ hto, ?_⟩
                rw [List.indexOf_append_of_mem hto, List.indexOf_append_of_mem hvo]
                exact hidx
              · rw [List.mem_singleton] at hvn
                subst hvn
                have hto : t ∈ s2.order := hchild_ord t hts
                refine ⟨List.mem_append_left _ hto, ?_⟩
                rw [List.indexOf_append_of_mem hto,
                  List.indexOf_append_of_not_mem hnotord, List.indexOf_cons_self]
                have := List.indexOf_lt_length.mpr hto
                omega }
        · show s2.temp.erase n = s.temp
          rw [htemp2', List.erase_cons_head]
        · exact ⟨l2 ++ [n], by show s2.order ++ [n] = _; rw [hord2]; simp⟩
        · intro x hx
          exact List.mem_cons_of_mem _ (hmono2 x hx)
        · exact List.mem_cons_self n _
    refine ⟨hvisit, ?_⟩
    intro s cs
    induction cs generalizing s with
    | nil =>
      intro sf hInv _ hv
      rw [visitList_nil] at hv
      injection hv with h
      subst h
      exact ⟨⟨hInv, rfl, ⟨[], by simp⟩, fun _ hx => hx⟩, by simp⟩
    | cons c cs' ihc =>
      intro sf hInv hlt hv
      rw [visitList_cons] at hv
      cases hvc : visit st (f + 1) s c with
      | error e =>
        rw [hvc] at hv
        exact Except.noConfusion hv
      | ok s' =>
        rw [hvc] at hv
        obtain ⟨⟨hInv', htemp', ⟨l', hord'⟩, hmono'⟩, hcvis⟩ :=
          hvisit s c s' hInv (hlt c (List.mem_cons_self c cs')) hvc
        obtain ⟨⟨hInvf, htempf, ⟨lf, hordf⟩, hmonof⟩, hall⟩ :=
          ihc s' sf hInv' (fun x hx => hlt x (List.mem_cons_of_mem _ hx)) hv
        refine ⟨⟨hInvf, by rw [htempf, htemp'],
          ⟨l' ++ lf, by rw [hordf, hord']; simp⟩,
          fun x hx => hmonof x (hmono' x hx)⟩, ?_⟩
        intro x hx
        rcases List.mem_cons.mp hx with rfl | hx'
        · exact hmonof x hcvis
        · exact hall x hx'

theorem DFSInv.push (st : GraphState) (s : DFSState) (n : Nat) (hInv : DFSInv st s)
    (ht : n ∉ s.temp) (hvd : n ∉ s.visited) (hn : n < st.nodes.length) :
    DFSInv st { s with temp := n :: s.temp } :=
  { tnd := List.nodup_cons.mpr ⟨ht, hInv.tnd⟩
    tlt := by
      intro x hx
      rcases List.mem_cons.mp hx with rfl | hx'
      · exact hn
      · exact hInv.tlt x hx'
    tv := by
      intro x hx
      rcases List.mem_cons.mp hx with rfl | hx'
      · exact hvd
      · exact hInv.tv x hx'
    vo := hInv.vo
    ond := hInv.ond
    ord := hInv.ord }

theorem temp_length_le (st : GraphState) (s : DFSState) (h : DFSInv st s) :
    s.temp.length ≤ st.nodes.length := by
  have hsub : s.temp ⊆ List.range st.nodes.length :=
    fun x hx => List.mem_range.mpr (h.tlt x hx)
  have := (List.subperm_of_subset h.tnd hsub).length_le
  simpa using this

def VisitNoFuelP (st : GraphState) (fuel : Nat) : Prop :=
  ∀ s n, DFSInv st s → n < st.nodes.length →
    st.nodes.length + 1 ≤ fuel + s.temp.length →
    visit st fuel s n ≠ Except.error SortErr.fuel

def VisitListNoFuelP (st : GraphState) (fuel : Nat) : Prop :=
  ∀ s cs, DFSInv st s → (∀ c ∈ cs, c < st.nodes.length) →
    st.nodes.length + 1 ≤ fuel + s.temp.length →
    visitList st fuel s cs ≠ Except.error SortErr.fuel

/-- The recursion bound `nodes.length + 1` used by the embedded sort never
runs out on a well-formed graph: the temporary-mark stack is a
duplicate-free list of node ids, so the recursion depth is bounded by the
node count. -/
theorem dfs_no_fuel (st : GraphState) (hwf : WF st) (fuel : Nat) :
    VisitNoFuelP st fuel ∧ VisitListNoFuelP st fuel := by
  induction fuel with
  | zero =>
    have habs : ∀ s : DFSState, DFSInv st s →
        st.nodes.length + 1 ≤ 0 + s.temp.length → False := by
      intro s hInv hle
      have := temp_length_le st s hInv
      omega
    exact ⟨fun s n hInv _ hle => absurd (habs s hInv hle) (by simp),
      fun s cs hInv _ hle => absurd (habs s hInv hle) (by simp)⟩
  | succ f ih =>
    have hvisit : VisitNoFuelP st (f + 1) := by
      intro s n hInv hn hle
      rw [visit_succ]
      by_cases ht : n ∈ s.temp
      · rw [if_pos ht]
        intro h
        injection h with h2
        exact SortErr.noConfusion h2
      rw [if_neg ht]
      by_cases hvd : n ∈ s.visited
      · rw [if_pos hvd]
        exact fun h => Except.noConfusion h
      rw [if_neg hvd]
      have hInv1 := DFSInv.push st s n hInv ht hvd hn
      cases hvl : visitList st f { s with temp := n :: s.temp } (succs st n) with
      | error e =>
        have hne := ih.2 { s with temp := n :: s.temp } (succs st n) hInv1
          (fun c hc => WF_succs_lt st hwf n c hc) (by simp; omega)
        rw [hvl] at hne
        intro h
        injection h with h2
        exact hne (by rw [h2])
      | ok s2 =>
        exact fun h => Except.noConfusion h
    refine ⟨hvisit, ?_⟩
    intro s cs
    induction cs generalizing s with
    | nil =>
      intro hInv _ _
      rw [visitList_nil]
      exact fun h => Except.noConfusion h
    | cons c cs' ihc =>
      intro hInv hlt hle
      rw [visitList_cons]
      cases hvc : visit st (f + 1) s c with
      | error e =>
        have hne := hvisit s c hInv (hlt c (List.mem_cons_self c cs')) hle
        rw [hvc] at hne
        intro h
        injection h with h2
        exact hne (by rw [h2])
      | ok s' =>
        obtain ⟨⟨hInv', htemp', _, _⟩, _⟩ :=
          (dfs_ok st hwf (f + 1)).1 s c s' hInv (hlt c (List.mem_cons_self c cs')) hvc
        exact ihc s' hInv' (fun x hx => hlt x (List.mem_cons_of_mem _ hx))
          (by rw [htemp']; exact hle)

/-- Acyclicity of the connection relation. -/
def Acyclic (st : GraphState) : Prop :=
  ∀ a : Nat, ¬ Relation.TransGen (hasEdge st) a a

def VisitNoCycleP (st : GraphState) (fuel : Nat) : Prop :=
  ∀ s n, DFSInv st s → n < st.nodes.length →
    (∀ t ∈ s.temp, Relation.TransGen (hasEdge st) t n) → Acyclic st →
    visit st fuel s n ≠ Except.error SortErr.cycle

def VisitListNoCycleP (st : GraphState) (fuel : Nat) : Prop :=
  ∀ s cs, DFSInv st s → (∀ c ∈ cs, c < st.nodes.length) →
    (∀ c ∈ cs, ∀ t ∈ s.temp, Relation.TransGen (hasEdge st) t c) → Acyclic st →
    visitList st fuel s cs ≠ Except.error SortErr.cycle

/-- On an acyclic graph the `"Graph contains a cycle"` branch is never
taken: every temporary mark lies on the current traversal path, so a
re-encountered mark would witness a genuine cycle. -/
theorem dfs_no_cycle (st : GraphState) (hwf : WF st) (fuel : Nat) :
    VisitNoCycleP st fuel ∧ VisitListNoCycleP st fuel := by
  induction fuel with
  | zero =>
    constructor
    · intro s n _ _ _ _
      rw [visit_zero]
      intro h
      injection h with h2
      exact SortErr.noConfusion h2
    · intro s cs _ _ _ _
      cases cs with
      | nil =>
        rw [visitList_nil]
        exact fun h => Except.noConfusion h
      | cons c cs' =>
        rw [visitList_cons, visit_zero]
        intro h
        injection h with h2
        exact SortErr.noConfusion h2
  | succ f ih =>
    have hvisit : VisitNoCycleP st (f + 1) := by
      intro s n hInv hn hpath hacyc
      rw [visit_succ]
      by_cases ht : n ∈ s.temp
      · exact absurd (hpath n ht) (hacyc n)
      rw [if_neg ht]
      by_cases hvd : n ∈ s.visited
      · rw [if_pos hvd]
        exact fun h => Except.noConfusion h
      rw [if_neg hvd]
      have hInv1 := DFSInv.push st s n hInv ht hvd hn
      cases hvl : visitList st f { s with temp := n :: s.temp } (succs st n) with
      | error e =>
        have hchildpath : ∀ c ∈ succs st n, ∀ t ∈ ({ s with temp := n :: s.temp } : DFSState).temp,
            Relation.TransGen (hasEdge st) t c := by
          intro c hc t htm
          rcases List.mem_cons.mp htm with rfl | ht'
          · exact Relation.TransGen.single ((hasEdge_iff_succs st t c).mpr hc)
          · exact Relation.TransGen.tail (hpath t ht') ((hasEdge_iff_succs st n c).mpr hc)
        have hne := ih.2 { s with temp := n :: s.temp } (succs st n) hInv1
          (fun c hc => WF_succs_lt st hwf n c hc) hchildpath hacyc
        rw [hvl] at hne
        intro h
        injection h with h2
        exact hne (by rw [h2])
      | ok s2 =>
        exact fun h => Except.noConfusion h
    refine ⟨hvisit, ?_⟩
    intro s cs
    induction cs generalizing s with
    | nil =>
      intro _ _ _ _
      rw [visitList_nil]
      exact fun h => Except.noConfusion h
    | cons c cs' ihc =>
      intro hInv hlt hpath hacyc
      rw [visitList_cons]
      cases hvc : visit st (f + 1) s c with
      | error e =>
        have hne := hvisit s c hInv (hlt c (List.mem_cons_self c cs'))
          (hpath c (List.mem_cons_self c cs')) hacyc
        rw [hvc] at hne
        intro h
        injection h with h2
        exact hne (by rw [h2])
      | ok s' =>
        obtain ⟨⟨hInv', htemp', _, _⟩, _⟩ :=
          (dfs_ok st hwf (f + 1)).1 s c s' hInv (hlt c (List.mem_cons_self c cs')) hvc
        exact ihc s' hInv' (fun x hx => hlt x (List.mem_cons_of_mem _ hx))
          (fun x hx t htm => hpath x (List.mem_cons_of_mem _ hx) t (htemp' ▸ htm)) hacyc

theorem runAll_nil (st : GraphState) (fuel : Nat) (s : DFSState) :
    runAll st fuel s [] = Except.ok s := rfl

theorem runAll_cons (st : GraphState) (fuel : Nat) (s : DFSState) (i : Nat)
    (is : List Nat) :
    runAll st fuel s (i :: is) =
      (if i ∈ s.visited then runAll st fuel s is
       else
         match visit st fuel s i with
         | Except.error e => Except.error e
         | Except.ok s' => runAll st fuel s' is) := rfl

theorem runAll_ok (st : GraphState) (hwf : WF st) (fuel : Nat) :
    ∀ ids s sf, DFSInv st s → (∀ i ∈ ids, i < st.nodes.length) →
    runAll st fuel s ids = Except.ok sf →
    VisitConc st s sf ∧ ∀ i ∈ ids, i ∈ sf.visited := by
  intro ids
  induction ids with
  | nil =>
    intro s sf hInv _ hr
    rw [runAll_nil] at hr
    injection hr with h
    subst h
    exact ⟨⟨hInv, rfl, ⟨[], by simp⟩, fun _ hx => hx⟩, by simp⟩
  | cons i is ihr =>
    intro s sf hInv hlt hr
    rw [runAll_cons] at hr
    by_cases hvd : i ∈ s.visited
    · rw [if_pos hvd] at hr
      obtain ⟨⟨hInvf, htempf, hordf, hmonof⟩, hall⟩ :=
        ihr s sf hInv (fun x hx => hlt x (List.mem_cons_of_mem _ hx)) hr
      refine ⟨⟨hInvf, htempf, hordf, hmonof⟩, ?_⟩
      intro x hx
      rcases List.mem_cons.mp hx with rfl | hx'
      · exact hmonof x hvd
      · exact hall x hx'
    · rw [if_neg hvd] at hr
      cases hvc : visit st fuel s i with
      | error e =>
        rw [hvc] at hr
        exact Except.noConfusion hr
      | ok s' =>
        rw [hvc] at hr
        obtain ⟨⟨hInv', htemp', ⟨l', hord'⟩, hmono'⟩, hivis⟩ :=
          (dfs_ok st hwf fuel).1 s i s' hInv (hlt i (List.mem_cons_self i is)) hvc
        obtain ⟨⟨hInvf, htempf, ⟨lf, hordf⟩, hmonof⟩, hall⟩ :=
          ihr s' sf hInv' (fun x hx => hlt x (List.mem_cons_of_mem _ hx)) hr
        refine ⟨⟨hInvf, by rw [htempf, htemp'],
          ⟨l' ++ lf, by rw [hordf, hord']; simp⟩,
          fun x hx => hmonof x (hmono' x hx)⟩, ?_⟩
        intro x hx
        rcases List.mem_cons.mp hx with rfl | hx'
        · exact hmonof x hivis
        · exact hall x hx'

theorem runAll_no_fuel (st : GraphState) (hwf : WF st) (fuel : Nat) :
    ∀ ids s, DFSInv st s → (∀ i ∈ ids, i < st.nodes.length) →
    st.nodes.length + 1 ≤ fuel + s.temp.length →
    runAll st fuel s ids ≠ Except.error SortErr.fuel := by
  intro ids
  induction ids with
  | nil =>
    intro s _ _ _
    rw [runAll_nil]
    exact fun h => Except.noConfusion h
  | cons i is ihr =>
    intro s hInv hlt hle
    rw [runAll_cons]
    by_cases hvd : i ∈ s.visited
    · rw [if_pos hvd]
      exact ihr s hInv (fun x hx => hlt x (List.mem_cons_of_mem _ hx)) hle
    · rw [if_neg hvd]
      cases hvc : visit st fuel s i with
      | error e =>
        have hne := (dfs_no_fuel st hwf fuel).1 s i hInv
          (hlt i (List.mem_cons_self i is)) hle
        rw [hvc] at hne
        intro h
        injection h with h2
        exact hne (by rw [h2])
      | ok s' =>
        obtain ⟨⟨hInv', htemp', _, _⟩, _⟩ :=
          (dfs_ok st hwf fuel).1 s i s' hInv (hlt i (List.mem_cons_self i is)) hvc
        exact ihr s' hInv' (fun x hx => hlt x (List.mem_cons_of_mem _ hx))
          (by rw [htemp']; exact hle)

theorem runAll_no_cycle (st : GraphState) (hwf : WF st) (fuel : Nat) :
    ∀ ids s, DFSInv st s → (∀ i ∈ ids, i < st.nodes.length) →
    s.temp = [] → Acyclic st →
    runAll st fuel s ids ≠ Except.error SortErr.cycle := by
  intro ids
  induction ids with
  | nil =>
    intro s _ _ _ _
    rw [runAll_nil]
    exact fun h => Except.noConfusion h
  | cons i is ihr =>
    intro s hInv hlt htemp hacyc
    rw [runAll_cons]
    by_cases hvd : i ∈ s.visited
    · rw [if_pos hvd]
      exact ihr s hInv (fun x hx => hlt x (List.mem_cons_of_mem _ hx)) htemp hacyc
    · rw [if_neg hvd]
      cases hvc : visit st fuel s i with
      | error e =>
        have hne := (dfs_no_cycle st hwf fuel).1 s i hInv
          (hlt i (List.mem_cons_self i is))
          (fun t htm => absurd (htemp ▸ htm) (List.not_mem_nil t)) hacyc
        rw [hvc] at hne
        intro h
        injection h with h2
        exact hne (by rw [h2])
      | ok s' =>
        obtain ⟨⟨hInv', htemp', _, _⟩, _⟩ :=
          (dfs_ok st hwf fuel).1 s i s' hInv (hlt i (List.mem_cons_self i is)) hvc
        exact ihr s' hInv' (fun x hx => hlt x (List.mem_cons_of_mem _ hx))
          (by rw [htemp', htemp]) hacyc

def dfsStart : DFSState := ⟨[], [], []⟩

theorem dfsStart_inv (st : GraphState) : DFSInv st dfsStart :=
  { tnd := List.nodup_nil
    tlt := fun x hx => absurd hx (List.not_mem_nil x)
    tv := fun x hx => absurd hx (List.not_mem_nil x)
    vo := fun x => by simp [dfsStart]
    ond := List.nodup_nil
    ord := fun v hv => absurd hv (List.not_mem_nil v) }

theorem sourceNodes_lt (st : GraphState) : ∀ i ∈ sourceNodes st, i < st.nodes.length := by
  intro i hi
  unfold sourceNodes at hi
  exact List.mem_range.mp (List.mem_of_mem_filter hi)

theorem indexOf_reverse_nodup (l : List Nat) (hl : l.Nodup) (a : Nat) (ha : a ∈ l) :
    l.reverse.indexOf a = l.length - 1 - l.indexOf a := by
  induction l with
  | nil => exact absurd ha (List.not_mem_nil a)
  | cons x xs ih =>
    rw [List.reverse_cons]
    rcases List.mem_cons.mp ha with rfl | ha'
    · have hx : a ∉ xs := (List.nodup_cons.mp hl).1
      have hxr : a ∉ xs.reverse := fun hc => hx (List.mem_reverse.mp hc)
      rw [List.indexOf_append_of_not_mem hxr, List.indexOf_cons_self,
        List.indexOf_cons_self]
      simp
    · have hne : x ≠ a := by
        intro hc
        subst hc
        exact (List.nodup_cons.mp hl).1 ha'
      rw [List.indexOf_append_of_mem (List.mem_reverse.mpr ha'),
        ih (List.nodup_cons.mp hl).2 ha', List.indexOf_cons_ne _ hne]
      have hlt := List.indexOf_lt_length.mpr ha'
      simp only [List.length_cons, Nat.succ_sub_one]
      omega

theorem reverse_indexOf_lt (l : List Nat) (hl : l.Nodup) (a b : Nat)
    (ha : a ∈ l) (hb : b ∈ l) (hab : l.indexOf b < l.indexOf a) :
    l.reverse.indexOf a < l.reverse.indexOf b := by
  rw [indexOf_reverse_nodup l hl a ha, indexOf_reverse_nodup l hl b hb]
  have hla := List.indexOf_lt_length.mpr ha
  have hlb := List.indexOf_lt_length.mpr hb
  omega

/-- Soundness and completeness of a successful embedded topological sort:
every graph node appears in the output, the output has no duplicates, and
every connection source appears strictly before its target. -/
theorem topological_sort_sound (st : GraphState) (hwf : WF st)
    (sorted : List Nat) (hok : topological_sort st = Except.ok sorted) :
    (∀ i, i < st.nodes.length → i ∈ sorted) ∧ sorted.Nodup ∧
    (∀ a b, hasEdge st a b → a ∈ sorted →
      b ∈ sorted ∧ sorted.indexOf a < sorted.indexOf b) := by
  unfold topological_sort at hok
  cases h1 : runAll st (st.nodes.length + 1) dfsStart (sourceNodes st) with
  | error e =>
    rw [show (⟨[], [], []⟩ : DFSState) = dfsStart from rfl, h1] at hok
    exact Except.noConfusion hok
  | ok s1 =>
    rw [show (⟨[], [], []⟩ : DFSState) = dfsStart from rfl, h1] at hok
    have hok2 : (match runAll st (st.nodes.length + 1) s1 (List.range st.nodes.length) with
        | Except.error e => Except.error e
        | Except.ok s2 => Except.ok s2.order.reverse) = Except.ok sorted := hok
    cases h2 : runAll st (st.nodes.length + 1) s1 (List.range st.nodes.length) with
    | error e =>
      rw [h2] at hok2
      exact Except.noConfusion hok2
    | ok s2 =>
      rw [h2] at hok2
      injection hok2 with hok'
      obtain ⟨⟨hInv1, _, _, _⟩, _⟩ := runAll_ok st hwf _ _ _ _ (dfsStart_inv st)
        (sourceNodes_lt st) h1
      obtain ⟨⟨hInv2, _, _, _⟩, hall⟩ := runAll_ok st hwf _ _ _ _ hInv1
        (fun i hi => List.mem_range.mp hi) h2
      subst hok'
      have hcomp : ∀ i, i < st.nodes.length → i ∈ s2.order := by
        intro i hi
        exact (hInv2.vo i).mp (hall i (List.mem_range.mpr hi))
      refine ⟨fun i hi => List.mem_reverse.mpr (hcomp i hi),
        List.nodup_reverse.mpr hInv2.ond, ?_⟩
      intro a b hedge hamem
      have hao : a ∈ s2.order := List.mem_reverse.mp hamem
      obtain ⟨hbo, hidx⟩ := hInv2.ord a hao b ((hasEdge_iff_succs st a b).mp hedge)
      exact ⟨List.mem_reverse.mpr hbo,
        reverse_indexOf_lt s2.order hInv2.ond a b hao hbo hidx⟩

/-- C1: on a well-formed acyclic graph the embedded `_topological_sort`
succeeds, and for every connection from node `a` to node `b` the produced
order places `a` strictly before `b`. -/
theorem topological_sort_ordered (st : GraphState) (hwf : WF st) (hacyc : Acyclic st) :
    ∃ sorted : List Nat, topological_sort st = Except.ok sorted ∧
      ∀ a b, a < st.nodes.length → hasEdge st a b →
        a ∈ sorted ∧ b ∈ sorted ∧ sorted.indexOf a < sorted.indexOf b := by
  have hsort : ∃ sorted, topological_sort st = Except.ok sorted := by
    unfold topological_sort
    cases h1 : runAll st (st.nodes.length + 1) dfsStart (sourceNodes st) with
    | error e =>
      exfalso
      cases e with
      | fuel =>
        exact runAll_no_fuel st hwf _ (sourceNodes st) dfsStart (dfsStart_inv st)
          (sourceNodes_lt st) (by simp [dfsStart]) h1
      | cycle =>
        exact runAll_no_cycle st hwf _ (sourceNodes st) dfsStart (dfsStart_inv st)
          (sourceNodes_lt st) rfl hacyc h1
    | ok s1 =>
      rw [show (⟨[], [], []⟩ : DFSState) = dfsStart from rfl, h1]
      obtain ⟨⟨hInv1, htemp1, _, _⟩, _⟩ := runAll_ok st hwf _ _ _ _ (dfsStart_inv st)
        (sourceNodes_lt st) h1
      cases h2 : runAll st (st.nodes.length + 1) s1 (List.range st.nodes.length) with
      | error e =>
        exfalso
        cases e with
        | fuel =>
          exact runAll_no_fuel st hwf _ _ s1 hInv1
            (fun i hi => List.mem_range.mp hi)
            (by rw [htemp1]; simp [dfsStart]) h2
        | cycle =>
          exact runAll_no_cycle st hwf _ _ s1 hInv1
            (fun i hi => List.mem_range.mp hi) (by rw [htemp1]; rfl) hacyc h2
      | ok s2 =>
        refine ⟨s2.order.reverse, ?_⟩
        show (match runAll st (st.nodes.length + 1) s1 (List.range st.nodes.length) with
            | Except.error e => Except.error e
            | Except.ok s2 => Except.ok s2.order.reverse) = Except.ok s2.order.reverse
        rw [h2]
  obtain ⟨sorted, hok⟩ := hsort
  obtain ⟨hcomp, _, hord⟩ := topological_sort_sound st hwf sorted hok
  refine ⟨sorted, hok, ?_⟩
  intro a b ha hedge
  have hamem : a ∈ sorted := hcomp a ha
  obtain ⟨hbmem, hidx⟩ := hord a b hedge hamem
  exact ⟨hamem, hbmem, hidx⟩

def c1Graph : GraphState :=
  ⟨[⟨"movie", "A", [("filename", PVal.str "a.png")], [], [(1, 0)], [], []⟩,
    ⟨"scale", "B", [], [(some 0, 0)], [], [], []⟩], [], []⟩

theorem c1Graph_edges (a b : Nat) (h : hasEdge c1Graph a b) : a = 0 ∧ b = 1 := by
  obtain ⟨p, hp⟩ := h
  match a with
  | 0 =>
    refine ⟨rfl, ?_⟩
    have : (b, p) ∈ [((1 : Nat), (0 : Int))] := hp
    rw [List.mem_singleton] at this
    exact congrArg Prod.fst this
  | 1 => exact absurd hp (List.not_mem_nil _)
  | n + 2 => exact absurd hp (List.not_mem_nil _)

theorem c1Graph_acyclic : Acyclic c1Graph := by
  have hgen : ∀ x y, Relation.TransGen (hasEdge c1Graph) x y → x = 0 ∧ y = 1 := by
    intro x y h
    induction h with
    | single h' => exact c1Graph_edges _ _ h'
    | tail _ hyz ih =>
      obtain ⟨_, hb1⟩ := ih
      obtain ⟨hb0, hy1⟩ := c1Graph_edges _ _ hyz
      omega
  intro a ha
  obtain ⟨h0, h1⟩ := hgen a a ha
  omega

/-- Witness for C1: on the concrete two-node acyclic graph `A → B` the sort
succeeds and orders every connection source before its target. -/
theorem topological_sort_ordered_witness :
    ∃ sorted : List Nat, topological_sort c1Graph = Except.ok sorted ∧
      ∀ a b, a < c1Graph.nodes.length → hasEdge c1Graph a b →
        a ∈ sorted ∧ b ∈ sorted ∧ sorted.indexOf a < sorted.indexOf b :=
  topological_sort_ordered c1Graph (by decide) c1Graph_acyclic

/-- A graph containing a cycle through one of its nodes makes the embedded
`_topological_sort` raise exactly the cycle error. -/
theorem topological_sort_cycle (st : GraphState) (hwf : WF st) (a : Nat)
    (ha : a < st.nodes.length) (hcyc : Relation.TransGen (hasEdge st) a a) :
    topological_sort st = Except.error SortErr.cycle := by
  have hnotok : ∀ sorted, topological_sort st ≠ Except.ok sorted := by
    intro sorted hok
    obtain ⟨hcomp, hnd, hord⟩ := topological_sort_sound st hwf sorted hok
    have hdesc : ∀ x y, Relation.TransGen (hasEdge st) x y → x ∈ sorted →
        y ∈ sorted ∧ sorted.indexOf x < sorted.indexOf y := by
      intro x y h hx
      induction h with
      | single h' => exact hord _ _ h' hx
      | tail _ hyz ih =>
        obtain ⟨hbmem, hlt1⟩ := ih
        obtain ⟨hymem, hlt2⟩ := hord _ _ hyz hbmem
        exact ⟨hymem, Nat.lt_trans hlt1 hlt2⟩
    obtain ⟨_, hlt⟩ := hdesc a a hcyc (hcomp a ha)
    omega
  have hnotfuel : topological_sort st ≠ Except.error SortErr.fuel := by
    unfold topological_sort
    cases h1 : runAll st (st.nodes.length + 1) dfsStart (sourceNodes st) with
    | error e =>
      cases e with
      | fuel =>
        exact absurd h1 (runAll_no_fuel st hwf _ (sourceNodes st) dfsStart
          (dfsStart_inv st) (sourceNodes_lt st) (by simp [dfsStart]))
      | cycle =>
        rw [show (⟨[], [], []⟩ : DFSState) = dfsStart from rfl, h1]
        intro h
        injection h with h2
        exact SortErr.noConfusion h2
    | ok s1 =>
      rw [show (⟨[], [], []⟩ : DFSState) = dfsStart from rfl, h1]
      obtain ⟨⟨hInv1, htemp1, _, _⟩, _⟩ := runAll_ok st hwf _ _ _ _ (dfsStart_inv st)
        (sourceNodes_lt st) h1
      cases h2 : runAll st (st.nodes.length + 1) s1 (List.range st.nodes.length) with
      | error e =>
        cases e with
        | fuel =>
          exact absurd h2 (runAll_no_fuel st hwf _ _ s1 hInv1
            (fun i hi => List.mem_range.mp hi) (by rw [htemp1]; simp [dfsStart]))
        | cycle =>
          show (match runAll st (st.nodes.length + 1) s1 (List.range st.nodes.length) with
              | Except.error e => Except.error e
              | Except.ok s2 => Except.ok s2.order.reverse) ≠ Except.error SortErr.fuel
          rw [h2]
          intro h
          injection h with h3
          exact SortErr.noConfusion h3
      | ok s2 =>
        show (match runAll st (st.nodes.length + 1) s1 (List.range st.nodes.length) with
            | Except.error e => Except.error e
            | Except.ok s2 => Except.ok s2.order.reverse) ≠ Except.error SortErr.fuel
        rw [h2]
        exact fun h => Except.noConfusion h
  cases hres : topological_sort st with
  | error e =>
    cases e with
    | cycle => rfl
    | fuel => exact absurd hres hnotfuel
  | ok sorted => exact absurd hres (hnotok sorted)

def noInputsMsg (lbl : String) : String :=
  "Node " ++ squoteStr ++ lbl ++ squoteStr ++
    " has no inputs and is not connected to an external input"

def tooManyInputsMsg (lbl : String) (k mx : Nat) : String :=
  "Node " ++ squoteStr ++ lbl ++ squoteStr ++ " has " ++ toString k ++
    " inputs but max allowed is " ++ toString mx

/-- Per-node structural checks of `FilterGraph._validate_structure`
(core.py lines 174-186): missing-input check (skipped for nodes bound as
external inputs) and the `max_inputs` bound, with `metadata or {}`
defaulting for unknown types. -/
def structNodeErrors (st : GraphState) (nId : Nat) : List String :=
  let n := getNode st nId
  let md := (get_filter_metadata n.filter_type).getD {}
  (if 0 < md.min_inputs ∧ n.inputs = [] ∧ ¬ externallyBound st nId then
    [noInputsMsg n.label] else []) ++
  (match md.max_inputs with
   | some mx => if mx < n.inputs.length then
       [tooManyInputsMsg n.label n.inputs.length mx] else []
   | none => [])

/-- Embedding of `FilterGraph._validate_structure` (core.py lines 164-188):
the caught cycle error of the attempted topological sort, then the
per-node structural checks in graph order. -/
def validate_structure (st : GraphState) : List String :=
  (match topological_sort st with
   | Except.error e => [e.msg]
   | Except.ok _ => []) ++
  (List.range st.nodes.length).flatMap (structNodeErrors st)

/-- Embedding of `FilterGraph.validate` (core.py lines 134-149): each
node's registry validation followed by the structural checks. -/
def validate_graph (st : GraphState) : List String :=
  (st.nodes.map validate_filter).join ++ validate_structure st

/-- Embedding of `FilterGraph.to_filter_string` (core.py lines 151-162):
empty graph gives the empty string, an invalid graph raises the aggregated
`ValueError`, otherwise the converter output is returned (a converter
error would propagate as a raise). -/
def to_filter_string (st : GraphState) : Except String String :=
  if st.nodes.isEmpty then Except.ok ""
  else
    let errs := validate_graph st
    if errs.isEmpty then
      match converter_to_string st with
      | Except.error e => Except.error e.msg
      | Except.ok out => Except.ok out
    else Except.error ("Invalid filter graph: " ++ String.intercalate "; " errs)

/-- C2: a graph containing a directed cycle through one of its nodes has
`validate()` return a non-empty error list containing the message
`"Graph contains a cycle"`, and `to_filter_string()` raises instead of
returning a string. -/
theorem cycle_detected (st : GraphState) (hwf : WF st) (a : Nat)
    (ha : a < st.nodes.length) (hcyc : Relation.TransGen (hasEdge st) a a) :
    "Graph contains a cycle" ∈ validate_graph st ∧
    validate_graph st ≠ [] ∧
    ∃ msg, to_filter_string st = Except.error msg := by
  have hsort := topological_sort_cycle st hwf a ha hcyc
  have hmem : "Graph contains a cycle" ∈ validate_graph st := by
    unfold validate_graph validate_structure
    rw [hsort]
    refine List.mem_append_right _ (List.mem_append_left _ ?_)
    rw [List.mem_singleton]
    rfl
  have hne : validate_graph st ≠ [] := fun h => by
    rw [h] at hmem
    exact List.not_mem_nil _ hmem
  refine ⟨hmem, hne, ?_⟩
  unfold to_filter_string
  have hnodes : ¬ st.nodes.isEmpty = true := by
    intro h
    rw [List.isEmpty_iff.mp h] at ha
    simp at ha
  rw [if_neg hnodes]
  simp only
  rw [if_neg (fun h => hne (List.isEmpty_iff.mp h))]
  exact ⟨_, rfl⟩

def c2Graph : GraphState :=
  ⟨[⟨"scale", "A", [], [(some 1, 0)], [(1, 0)], [], []⟩,
    ⟨"scale", "B", [], [(some 0, 0)], [(0, 0)], [], []⟩], [], []⟩

/-- Witness for C2: the two-node graph with the cycle `A → B → A` yields
the cycle message in `validate()` and an error from `to_filter_string()`. -/
theorem cycle_detected_witness :
    "Graph contains a cycle" ∈ validate_graph c2Graph ∧
    validate_graph c2Graph ≠ [] ∧
    ∃ msg, to_filter_string c2Graph = Except.error msg :=
  cycle_detected c2Graph (by decide) 0 (by decide)
    (Relation.TransGen.tail
      (Relation.TransGen.single (show hasEdge c2Graph 0 1 from ⟨0, by decide⟩))
      (show hasEdge c2Graph 1 0 from ⟨0, by decide⟩))

/-- C9: a graph with zero nodes serializes to the empty string and
validates with no errors. -/
theorem empty_graph_spec (st : GraphState) (h : st.nodes = []) :
    to_filter_string st = Except.ok "" ∧ validate_graph st = [] := by
  have hlen : st.nodes.length = 0 := by rw [h]; rfl
  constructor
  · unfold to_filter_string
    rw [if_pos (List.isEmpty_iff.mpr h)]
  · unfold validate_graph validate_structure topological_sort sourceNodes
    rw [h]
    rfl

/-- Witness for C9 on the literally empty graph state. -/
theorem empty_graph_spec_witness :
    to_filter_string ⟨[], [], []⟩ = Except.ok "" ∧
    validate_graph ⟨[], [], []⟩ = [] :=
  empty_graph_spec ⟨[], [], []⟩ rfl
